import Mathlib

/-!
Shallow embedding of the "midnight" dice-game simulator
(src/midnight/utils.py, strategy.py, player.py, game.py) and proofs about it.

Dice values, scores, stakes, pots and wagers are modelled as `Int` (Python
ints).  Python exceptions (`InvalidScoreException`, `ValueError` from
`list.remove`/`max` on empty lists, assertion failures) are modelled by
`Option`: `none` means the Python code raises.
-/

namespace Midnight

/-- utils.py: `N_DICE = 6`. -/
def N_DICE : Nat := 6

/-- utils.py: `QUALIFIERS = set([1, 4])` (a two-element set of small ints;
iteration order in CPython is 1 then 4, matching this list). -/
def QUALIFIERS : List Int := [1, 4]

/-- utils.py: `INF_STAKE = 100000000`. -/
def INF_STAKE : Int := 100000000

/-- utils.py: `ANTE = 1`. -/
def ANTE : Int := 1

/-- utils.py: `Score.is_valid_score`: `0 <= score <= 6 * (N_DICE - len(QUALIFIERS))`. -/
def is_valid_score (score : Int) : Bool :=
  decide (0 ≤ score) && decide (score ≤ 6 * ((N_DICE : Int) - (QUALIFIERS.length : Int)))

/-- utils.py: `Score.__new__`: the underlying int when valid, otherwise
`InvalidScoreException` (modelled as `none`). -/
def Score.new (score : Int) : Option Int :=
  if is_valid_score score then some score else none

/-- The loop shared by utils.py `score_dice` and player.py `Player.score`:
`for must_have_value in <qualifier set>: if must_have_value not in dice:
return Score(0) else: s -= must_have_value`, then `return Score(s)`. -/
def score_go (dice : List Int) : List Int → Int → Option Int
  | [], s => Score.new s
  | q :: qs, s => if dice.contains q then score_go dice qs (s - q) else Score.new 0

/-- utils.py: `score_dice`. -/
def score_dice (dice : List Int) : Option Int :=
  score_go dice QUALIFIERS dice.sum

/-- utils.py: `dice_qualify`: `QUALIFIERS.issubset(dice)`. -/
def dice_qualify (dice : List Int) : Bool :=
  QUALIFIERS.all (fun q => dice.contains q)

lemma is_valid_score_iff (s : Int) : is_valid_score s = true ↔ 0 ≤ s ∧ s ≤ 24 := by
  simp [is_valid_score, N_DICE, QUALIFIERS]

lemma Score.new_eq_some (s : Int) (h : 0 ≤ s ∧ s ≤ 24) : Score.new s = some s := by
  simp only [Score.new, (is_valid_score_iff s).mpr h, if_true]

lemma contains_iff (l : List Int) (a : Int) : l.contains a = true ↔ a ∈ l := by
  simp

lemma contains_false (l : List Int) (a : Int) (h : a ∉ l) : l.contains a = false := by
  cases hc : l.contains a
  · rfl
  · exact absurd ((contains_iff l a).mp hc) h

lemma score_dice_unfold (dice : List Int) :
    score_dice dice =
      if dice.contains 1 then
        (if dice.contains 4 then Score.new (dice.sum - 1 - 4) else Score.new 0)
      else Score.new 0 := by
  simp only [score_dice, QUALIFIERS, score_go]

lemma list_sum_le_six_mul (l : List Int) (h : ∀ x ∈ l, x ≤ 6) :
    l.sum ≤ 6 * (l.length : Int) := by
  induction l with
  | nil => simp
  | cons a t ih =>
    have ha : a ≤ 6 := h a (List.mem_cons_self a t)
    have ht : t.sum ≤ 6 * (t.length : Int) :=
      ih (fun x hx => h x (List.mem_cons_of_mem a hx))
    simp only [List.sum_cons, List.length_cons]
    push_cast
    linarith

lemma list_sum_nonneg_of_mem (l : List Int) (h : ∀ x ∈ l, 0 ≤ x) : 0 ≤ l.sum := by
  induction l with
  | nil => simp
  | cons a t ih =>
    have ha : 0 ≤ a := h a (List.mem_cons_self a t)
    have ht : 0 ≤ t.sum := ih (fun x hx => h x (List.mem_cons_of_mem a hx))
    simp only [List.sum_cons]
    linarith

/-- Bounds on the sum of a list of die values containing both qualifiers. -/
lemma qualifying_sum_bounds (l : List Int) (hlen : l.length ≤ 6)
    (hv : ∀ d ∈ l, 1 ≤ d ∧ d ≤ 6) (h1 : 1 ∈ l) (h4 : 4 ∈ l) :
    5 ≤ l.sum ∧ l.sum ≤ 29 := by
  have hperm1 : List.Perm l (1 :: l.erase 1) := List.perm_cons_erase h1
  have h4e : (4 : Int) ∈ l.erase 1 := by
    exact (List.mem_erase_of_ne (by decide)).mpr h4
  have hperm4 : List.Perm (l.erase 1) (4 :: (l.erase 1).erase 4) :=
    List.perm_cons_erase h4e
  set rest := (l.erase 1).erase 4 with hrest
  have hmem : ∀ x ∈ rest, x ∈ l := by
    intro x hx
    exact List.mem_of_mem_erase (List.mem_of_mem_erase hx)
  have hsum : l.sum = 1 + (4 + rest.sum) := by
    have e1 : l.sum = (1 :: l.erase 1).sum := hperm1.sum_eq
    have e4 : (l.erase 1).sum = (4 :: rest).sum := hperm4.sum_eq
    simp only [List.sum_cons] at e1 e4
    omega
  have hlenrest : rest.length = l.length - 2 := by
    have e1 : (l.erase 1).length = l.length - 1 := List.length_erase_of_mem h1
    have e4 : rest.length = (l.erase 1).length - 1 := List.length_erase_of_mem h4e
    omega
  have hub : rest.sum ≤ 6 * (rest.length : Int) :=
    list_sum_le_six_mul rest (fun x hx => (hv x (hmem x hx)).2)
  have hlb : 0 ≤ rest.sum :=
    list_sum_nonneg_of_mem rest (fun x hx => le_trans (by norm_num) (hv x (hmem x hx)).1)
  have hlen4 : rest.length ≤ 4 := by omega
  have : (rest.length : Int) ≤ 4 := by exact_mod_cast hlen4
  constructor <;> nlinarith

/-- C4: a dice list missing a qualifier scores 0; a six-die list of die
values containing both qualifiers scores sum − (1 + 4), each qualifier
subtracted exactly once. -/
theorem score_dice_spec (dice : List Int) :
    ((1 : Int) ∉ dice ∨ (4 : Int) ∉ dice → score_dice dice = some 0) ∧
    (dice.length = 6 → (∀ d ∈ dice, 1 ≤ d ∧ d ≤ 6) → (1 : Int) ∈ dice → (4 : Int) ∈ dice →
      score_dice dice = some (dice.sum - 5)) := by
  constructor
  · intro h
    rw [score_dice_unfold]
    by_cases hc1 : dice.contains 1 = true
    · have h1m := (contains_iff dice 1).mp hc1
      rcases h with h | h
      · exact absurd h1m h
      · have hc4 := contains_false dice 4 h
        simp only [hc1, hc4, if_true, Bool.false_eq_true, if_false]
        exact Score.new_eq_some 0 (by norm_num)
    · simp only [hc1, if_false]
      exact Score.new_eq_some 0 (by norm_num)
  · intro hlen hv h1 h4
    have hb := qualifying_sum_bounds dice (by omega) hv h1 h4
    rw [score_dice_unfold]
    have hc1 : dice.contains 1 = true := (contains_iff dice 1).mpr h1
    have hc4 : dice.contains 4 = true := (contains_iff dice 4).mpr h4
    simp only [hc1, hc4, if_true]
    have he : dice.sum - 1 - 4 = dice.sum - 5 := by ring
    rw [he]
    exact Score.new_eq_some _ (by omega)

/-- Closed-form instances for `score_dice_spec`. -/
theorem score_dice_spec_witness :
    score_dice [2, 3, 5, 6, 6, 6] = some 0 ∧ score_dice [1, 4, 1, 1, 1, 1] = some 4 := by
  refine ⟨(score_dice_spec [2, 3, 5, 6, 6, 6]).1 (Or.inl (by decide)), ?_⟩
  have h := (score_dice_spec [1, 4, 1, 1, 1, 1]).2 (by decide) (by decide)
    (by decide) (by decide)
  simpa using h

/-- C5: constructing a `Score` from an integer succeeds, yielding exactly that
integer, for every integer in [0,24], and raises `InvalidScoreException`
(modelled as `none`) for every integer outside; the value is never clamped. -/
theorem score_construction (s : Int) :
    (Score.new s = some s ↔ 0 ≤ s ∧ s ≤ 24) ∧
    (Score.new s = none ↔ ¬(0 ≤ s ∧ s ≤ 24)) ∧
    (∀ t, Score.new s = some t → t = s) := by
  by_cases h : 0 ≤ s ∧ s ≤ 24
  · have hv : is_valid_score s = true := (is_valid_score_iff s).mpr h
    refine ⟨?_, ?_, ?_⟩
    · simp [Score.new, hv, h]
    · simp [Score.new, hv, h]
    · intro t ht
      simp only [Score.new, hv, if_true, Option.some.injEq] at ht
      omega
  · have hv : is_valid_score s = false := by
      cases hvb : is_valid_score s
      · rfl
      · exact absurd ((is_valid_score_iff s).mp hvb) h
    refine ⟨?_, ?_, ?_⟩
    · simp [Score.new, hv, h]
    · simp [Score.new, hv, h]
    · intro t ht
      simp [Score.new, hv] at ht

/-- Closed-form instances for `score_construction`: 24 is accepted as itself,
25 and −1 are rejected. -/
theorem score_construction_witness :
    Score.new 24 = some 24 ∧ Score.new 25 = none ∧ Score.new (-1) = none :=
  ⟨(score_construction 24).1.mpr (by norm_num),
   (score_construction 25).2.1.mpr (by norm_num),
   (score_construction (-1)).2.1.mpr (by norm_num)⟩

/-!  strategy.py: `ConservativeStrategy`.  -/

/-- strategy.py `ConservativeStrategy._play`, first loop:
`for die in rolled_dice:` — break once `kept_dice + new_dice_to_keep`
qualifies, keep `die` when `die in QUALIFIERS and die not in kept_dice`.
Note the membership test is against `kept_dice` only, not against the dice
already chosen in this step.  `acc` accumulates `new_dice_to_keep`. -/
def consFirstPass (kept : List Int) : List Int → List Int → List Int
  | [], acc => acc
  | die :: rest, acc =>
    if dice_qualify (kept ++ acc) then acc
    else if QUALIFIERS.contains die && !(kept.contains die) then
      consFirstPass kept rest (acc ++ [die])
    else consFirstPass kept rest acc

/-- strategy.py `ConservativeStrategy.keep_when_qualifies`, one `while`
iteration at a time; every non-final iteration removes one die from the
rolled list, so fuel `rolled.length` is enough.  Returns the kept dice and
the remaining rolled dice (the Python code mutates `rolled_dice` in place). -/
def keepWQGo : Nat → List Int → List Int → List Int × List Int
  | 0, acc, rolled => (acc, rolled)
  | fuel + 1, acc, rolled =>
    if rolled.contains 6 then keepWQGo fuel (acc ++ [6]) (rolled.erase 6)
    else if rolled.length ≤ 2 && rolled.contains 5 then
      keepWQGo fuel (acc ++ [5]) (rolled.erase 5)
    else if rolled.length == 1 && rolled.contains 4 then
      keepWQGo fuel (acc ++ [4]) (rolled.erase 4)
    else (acc, rolled)

/-- strategy.py `ConservativeStrategy.keep_when_qualifies`. -/
def keep_when_qualifies (rolled : List Int) : List Int × List Int :=
  keepWQGo rolled.length [] rolled

/-- strategy.py `ConservativeStrategy._play`.  After the first pass each
chosen die is removed from the rolled list (`rolled_dice.remove(die)` removes
the first occurrence; at these call sites the die is always present).  The
`max` of an empty list raises in Python, modelled by `none`. -/
def cons_play (kept rolled : List Int) : Option (List Int) :=
  let fk := consFirstPass kept rolled []
  let r1 := fk.foldl (fun r d => r.erase d) rolled
  let p := if dice_qualify (kept ++ fk) then keep_when_qualifies r1 else ([], r1)
  let nk := fk ++ p.1
  if nk = [] then (p.2.max?).map (fun m => [m]) else some nk

/-- strategy.py `SimpleStrategy.play` for the conservative strategy: calls
`_play` on copies and asserts the result is non-empty. -/
def cons_strategy_play (kept rolled : List Int) : Option (List Int) :=
  (cons_play kept rolled).bind (fun l => if l = [] then none else some l)

/-- C1 (code_bug evaluation): on `kept = []`, `rolled = [1,1,6,3,3,3]` the
conservative first pass keeps the qualifier 1 twice in a single decision step
(the repo's own test `test_dont_keep_repeated_qualifiers` expects `[1]`),
because the duplicate check only consults previously kept dice. -/
theorem cons_play_repeated_qualifier_eval :
    cons_play [] [1, 1, 6, 3, 3, 3] = some [1, 1] ∧
    cons_strategy_play [] [1, 1, 6, 3, 3, 3] = some [1, 1] ∧
    consFirstPass [] [1, 1, 6, 3, 3, 3] [] = [1, 1] := by
  refine ⟨by decide, by decide, by decide⟩

/-- Regression checks that the embedding agrees with the repository's other
strategy fixtures (tests/test_strategy.py). -/
lemma cons_play_fixtures :
    cons_play [] [1, 4, 6, 3, 3, 3] = some [1, 4, 6] ∧
    cons_play [] [1, 5, 6, 3, 3, 3] = some [1] ∧
    cons_play [1] [1, 4, 6, 3, 3] = some [4, 6] ∧
    cons_play [1, 4, 6] [5, 4, 3] = some [5] ∧
    cons_play [1, 4, 6, 6] [5, 4] = some [5, 4] ∧
    cons_play [1, 4, 6, 6, 6] [4] = some [4] ∧
    cons_play [1, 4, 6, 6, 6] [3] = some [3] ∧
    cons_play [4, 6, 6, 6] [1, 5] = some [1, 5] ∧
    cons_play [4, 6, 6, 6] [1, 4] = some [1, 4] ∧
    cons_play [4, 6, 6, 6] [1, 3] = some [1] ∧
    cons_play [] [1, 4, 6, 6, 6, 5] = some [1, 4, 6, 6, 6, 5] ∧
    cons_play [] [1, 4, 6, 6, 6, 4] = some [1, 4, 6, 6, 6, 4] ∧
    cons_play [] [1, 4, 6, 6, 6, 3] = some [1, 4, 6, 6, 6] ∧
    cons_play [] [1, 4, 6, 6, 5, 2] = some [1, 4, 6, 6, 5] := by
  refine ⟨by decide, by decide, by decide, by decide, by decide, by decide, by decide,
    by decide, by decide, by decide, by decide, by decide, by decide, by decide⟩

/-!  player.py: `Player`.  -/

/-- player.py imports `MUST_HAVE_VALUES` from utils, where the qualifier set
is `QUALIFIERS = set([1, 4])` (the drafts midnight.py/main.py spell out
`MUST_HAVE_VALUES: Set[int] = set([1, 4])`). -/
def MUST_HAVE_VALUES : List Int := QUALIFIERS

/-- Per-round mutable state of player.py `Player` (name, kept dice, stake,
current wager). -/
structure PlayerState where
  name : String
  kept_dice : List Int
  stake : Int
  wager : Int
deriving Repr, DecidableEq

instance : Inhabited PlayerState := ⟨⟨"", [], 0, 0⟩⟩

/-- player.py `Player.qualifies`: `MUST_HAVE_VALUES.issubset(self.kept_dice)`. -/
def player_qualifies (dice : List Int) : Bool :=
  MUST_HAVE_VALUES.all (fun q => dice.contains q)

/-- player.py `Player.score` property (the same loop as utils.py
`score_dice`, over `MUST_HAVE_VALUES`). -/
def playerScore (dice : List Int) : Option Int :=
  score_go dice MUST_HAVE_VALUES dice.sum

/-- player.py `Player.reset`: clears the kept dice, then
`assert self.score == 0` (a failing assert or a raising score is `none`). -/
def Player.reset (p : PlayerState) : Option PlayerState :=
  let p1 : PlayerState := { p with kept_dice := [] }
  match playerScore p1.kept_dice with
  | none => none
  | some s => if s = 0 then some p1 else none

/-- The `while not self.has_finished()` loop of player.py `Player.play`:
draw `N_DICE - len(kept)` dice from the roll collaborator, ask the strategy
which to keep, extend the kept dice.  `strat` abstracts
`self.strategy.play(kept, rolled, ...)` (the context arguments are constant
during one call); `rollFn i n` is the result of the i-th `roll_dice(n)` call.
`fuel` bounds the number of iterations; running out models non-termination.
Besides the final kept dice the function returns the list of kept-dice
states at which the strategy was invoked (ghost data for the proofs). -/
def playLoop (strat : List Int → List Int → List Int) (rollFn : Nat → Nat → List Int) :
    Nat → Nat → List Int → Option (List Int × List (List Int))
  | 0, _, kept => if kept.length = N_DICE then some (kept, []) else none
  | fuel + 1, i, kept =>
    if kept.length = N_DICE then some (kept, [])
    else
      let rolled := rollFn i (N_DICE - kept.length)
      let keep := strat kept rolled
      (playLoop strat rollFn fuel (i + 1) (kept ++ keep)).map
        (fun r => (r.1, kept :: r.2))

/-- player.py `Player.play`: reset, `self.wager = ANTE`, the keep loop, then
`if self.qualifies(): self.wager += ANTE` and `self.stake -= self.wager`. -/
def Player.play (fuel : Nat) (strat : List Int → List Int → List Int)
    (rollFn : Nat → Nat → List Int) (p : PlayerState) : Option PlayerState :=
  (Player.reset p).bind (fun p1 =>
    (playLoop strat rollFn fuel 0 p1.kept_dice).map (fun r =>
      let w : Int := if player_qualifies r.1 then ANTE + ANTE else ANTE
      { p1 with kept_dice := r.1, wager := w, stake := p1.stake - w }))

lemma playerScore_nil : playerScore ([] : List Int) = some 0 := by
  decide

lemma Player.reset_eq (p : PlayerState) :
    Player.reset p = some { p with kept_dice := [] } := by
  simp [Player.reset, playerScore_nil]

/-- If the keep loop returns, the final kept list has exactly `N_DICE` dice. -/
lemma playLoop_length (strat : List Int → List Int → List Int)
    (rollFn : Nat → Nat → List Int) :
    ∀ fuel i kept r, playLoop strat rollFn fuel i kept = some r →
      r.1.length = N_DICE := by
  intro fuel
  induction fuel with
  | zero =>
    intro i kept r h
    simp only [playLoop] at h
    by_cases hk : kept.length = N_DICE
    · simp only [hk, if_true, Option.some.injEq] at h
      subst h
      exact hk
    · simp [hk] at h
  | succ n ih =>
    intro i kept r h
    simp only [playLoop] at h
    by_cases hk : kept.length = N_DICE
    · simp only [hk, if_true, Option.some.injEq] at h
      subst h
      exact hk
    · simp only [hk, if_false, Option.map_eq_some'] at h
      obtain ⟨r0, hr0, hmap⟩ := h
      have := ih _ _ _ hr0
      subst hmap
      exact this

/-- C6: `Player.play` resets the kept dice and wager (the outcome is
independent of the kept dice and wager the player entered the round with),
and on return the player holds `N_DICE` dice, wagers two antes when the kept
dice qualify and one ante otherwise, and has paid exactly that wager out of
the stake. -/
theorem player_play_settles (fuel : Nat) (strat : List Int → List Int → List Int)
    (rollFn : Nat → Nat → List Int) (p p' : PlayerState)
    (h : Player.play fuel strat rollFn p = some p') :
    p'.kept_dice.length = N_DICE ∧
    p'.wager = (if player_qualifies p'.kept_dice then 2 * ANTE else ANTE) ∧
    p'.stake = p.stake - p'.wager ∧
    p'.name = p.name ∧
    (∀ d w, Player.play fuel strat rollFn { p with kept_dice := d, wager := w } = some p') := by
  rw [Player.play, Player.reset_eq, Option.some_bind] at h
  cases hpl : playLoop strat rollFn fuel 0 ({ p with kept_dice := [] } : PlayerState).kept_dice with
  | none => rw [hpl] at h; simp at h
  | some r =>
    rw [hpl, Option.map_some'] at h
    have hlen := playLoop_length strat rollFn fuel 0 _ r hpl
    obtain rfl : _ = p' := Option.some.inj h
    refine ⟨hlen, ?_, ?_, rfl, ?_⟩
    · by_cases hq : player_qualifies r.1 <;> simp [hq, ANTE]
    · by_cases hq : player_qualifies r.1 <;> simp [hq]
    · intro d w
      rw [Player.play, Player.reset_eq, Option.some_bind]
      have : ({ { p with kept_dice := d, wager := w } with kept_dice := [] } : PlayerState).kept_dice
          = ({ p with kept_dice := [] } : PlayerState).kept_dice := rfl
      rw [this, hpl, Option.map_some']

/-- Closed instance for `player_play_settles`: a keep-everything strategy on a
single qualifying roll. -/
theorem player_play_settles_witness :
    Player.play 1 (fun _ rolled => rolled) (fun _ _ => [1, 4, 6, 6, 6, 5])
        ⟨"A", [2, 2], 10, 7⟩ = some ⟨"A", [1, 4, 6, 6, 6, 5], 8, 2⟩ ∧
    (⟨"A", [1, 4, 6, 6, 6, 5], 8, 2⟩ : PlayerState).kept_dice.length = N_DICE ∧
    (⟨"A", [1, 4, 6, 6, 6, 5], 8, 2⟩ : PlayerState).stake
      = (⟨"A", [2, 2], 10, 7⟩ : PlayerState).stake
        - (⟨"A", [1, 4, 6, 6, 6, 5], 8, 2⟩ : PlayerState).wager :=
  ⟨by decide,
   (player_play_settles 1 (fun _ rolled => rolled) (fun _ _ => [1, 4, 6, 6, 6, 5])
     ⟨"A", [2, 2], 10, 7⟩ ⟨"A", [1, 4, 6, 6, 6, 5], 8, 2⟩ (by decide)).1,
   (player_play_settles 1 (fun _ rolled => rolled) (fun _ _ => [1, 4, 6, 6, 6, 5])
     ⟨"A", [2, 2], 10, 7⟩ ⟨"A", [1, 4, 6, 6, 6, 5], 8, 2⟩ (by decide)).2.2.1⟩

/-- Totality of the keep loop: when every `roll_dice(n)` call yields `n` dice
and the strategy keeps a non-empty sub-multiset of every non-empty roll, the
loop finishes within `N_DICE - kept.length` strategy calls, the kept dice
stay below `N_DICE` at every strategy call, and end at exactly `N_DICE`. -/
lemma playLoop_total (strat : List Int → List Int → List Int)
    (rollFn : Nat → Nat → List Int)
    (hroll : ∀ i n, (rollFn i n).length = n)
    (hstrat : ∀ kept rolled, rolled ≠ [] →
      strat kept rolled ≠ [] ∧ List.Subperm (strat kept rolled) rolled) :
    ∀ fuel i kept, kept.length ≤ N_DICE → N_DICE - kept.length ≤ fuel →
      ∃ r, playLoop strat rollFn fuel i kept = some r ∧
        r.1.length = N_DICE ∧ r.2.length ≤ N_DICE - kept.length ∧
        ∀ ks ∈ r.2, ks.length < N_DICE := by
  have hN : N_DICE = 6 := rfl
  intro fuel
  induction fuel with
  | zero =>
    intro i kept h1 h2
    have hk : kept.length = N_DICE := by omega
    exact ⟨(kept, []), by simp [playLoop, hk], hk, by simp, by simp⟩
  | succ n ih =>
    intro i kept h1 h2
    by_cases hk : kept.length = N_DICE
    · exact ⟨(kept, []), by simp [playLoop, hk], hk, by simp, by simp⟩
    · have hlt : kept.length < N_DICE := lt_of_le_of_ne h1 hk
      have hrl : (rollFn i (N_DICE - kept.length)).length = N_DICE - kept.length :=
        hroll i _
      have hrne : rollFn i (N_DICE - kept.length) ≠ [] := by
        intro hnil
        rw [hnil] at hrl
        simp at hrl
        omega
      obtain ⟨hne, hsub⟩ := hstrat kept _ hrne
      have hklen : (strat kept (rollFn i (N_DICE - kept.length))).length
          ≤ N_DICE - kept.length := by
        have := hsub.length_le
        omega
      have hkpos : 0 < (strat kept (rollFn i (N_DICE - kept.length))).length :=
        List.length_pos.mpr hne
      have h1' : (kept ++ strat kept (rollFn i (N_DICE - kept.length))).length ≤ N_DICE := by
        rw [List.length_append]
        omega
      have h2' : N_DICE - (kept ++ strat kept (rollFn i (N_DICE - kept.length))).length ≤ n := by
        rw [List.length_append]
        omega
      obtain ⟨r0, hr0, hq1, hq2, hq3⟩ := ih (i + 1) _ h1' h2'
      refine ⟨(r0.1, kept :: r0.2), ?_, hq1, ?_, ?_⟩
      · simp only [playLoop, hk, if_false]
        rw [hr0, Option.map_some']
      · have := r0.2.length
        simp only [List.length_cons]
        rw [List.length_append] at hq2
        omega
      · intro ks hks
        rcases List.mem_cons.mp hks with hks | hks
        · rw [hks]
          exact hlt
        · exact hq3 ks hks

/-- C7: under the roll and strategy contracts, `Player.play` with fuel for 6
loop iterations terminates successfully, invokes the strategy at most 6
times, the kept-dice count is below 6 at every strategy invocation, and ends
at exactly 6. -/
theorem player_play_terminates (strat : List Int → List Int → List Int)
    (rollFn : Nat → Nat → List Int) (p : PlayerState)
    (hroll : ∀ i n, (rollFn i n).length = n)
    (hstrat : ∀ kept rolled, rolled ≠ [] →
      strat kept rolled ≠ [] ∧ List.Subperm (strat kept rolled) rolled) :
    ∃ p' r, Player.play 6 strat rollFn p = some p' ∧
      playLoop strat rollFn 6 0 [] = some r ∧ p'.kept_dice = r.1 ∧
      r.2.length ≤ 6 ∧ (∀ ks ∈ r.2, ks.length < N_DICE) ∧ r.1.length = N_DICE := by
  obtain ⟨r, hr, h1, h2, h3⟩ :=
    playLoop_total strat rollFn hroll hstrat 6 0 [] (by norm_num [N_DICE])
      (by norm_num [N_DICE])
  have hplay : ∃ p', Player.play 6 strat rollFn p = some p' ∧ p'.kept_dice = r.1 := by
    rw [Player.play, Player.reset_eq, Option.some_bind]
    have hkd : ({ p with kept_dice := [] } : PlayerState).kept_dice = [] := rfl
    rw [hkd, hr, Option.map_some']
    exact ⟨_, rfl, rfl⟩
  obtain ⟨p', hp1, hp2⟩ := hplay
  exact ⟨p', r, hp1, hr, hp2, by simpa using h2, h3, h1⟩

def takeOneStrat : List Int → List Int → List Int := fun _ rolled => rolled.take 1

def onesRoll : Nat → Nat → List Int := fun _ n => List.replicate n 1

/-- Closed instance for `player_play_terminates`: keep the first die of each
roll of all-ones. -/
theorem player_play_terminates_witness :
    ∃ p' r, Player.play 6 takeOneStrat onesRoll ⟨"C", [5], 3, 9⟩ = some p' ∧
      playLoop takeOneStrat onesRoll 6 0 [] = some r ∧ p'.kept_dice = r.1 ∧
      r.2.length ≤ 6 ∧ (∀ ks ∈ r.2, ks.length < N_DICE) ∧ r.1.length = N_DICE :=
  player_play_terminates takeOneStrat onesRoll ⟨"C", [5], 3, 9⟩
    (fun _ n => by simp [onesRoll])
    (fun kept rolled hne => by
      constructor
      · cases rolled with
        | nil => exact absurd rfl hne
        | cons a t => simp [takeOneStrat]
      · exact (List.take_sublist 1 rolled).subperm)

/-- C9: the score of any list of at most six die values is a valid `Score`
in [0,24] (so `Player.score` never raises `InvalidScoreException`), the
empty kept list scores 0, and the defensive assert in `Player.reset` always
succeeds. -/
theorem player_score_safe (kept : List Int) (p : PlayerState)
    (hlen : kept.length ≤ N_DICE) (hv : ∀ d ∈ kept, 1 ≤ d ∧ d ≤ 6) :
    (∃ s, playerScore kept = some s ∧ 0 ≤ s ∧ s ≤ 24) ∧
    playerScore ([] : List Int) = some 0 ∧
    Player.reset p = some { p with kept_dice := [] } := by
  refine ⟨?_, playerScore_nil, Player.reset_eq p⟩
  have hps : playerScore kept = score_dice kept := rfl
  rw [hps, score_dice_unfold]
  by_cases h1 : kept.contains 1
  · by_cases h4 : kept.contains 4
    · have hm1 := (contains_iff kept 1).mp h1
      have hm4 := (contains_iff kept 4).mp h4
      have hb := qualifying_sum_bounds kept (by simpa [N_DICE] using hlen) hv hm1 hm4
      refine ⟨kept.sum - 1 - 4, ?_, by omega, by omega⟩
      simp only [h1, h4, if_true]
      exact Score.new_eq_some _ (by omega)
    · refine ⟨0, ?_, le_refl 0, by norm_num⟩
      simp only [h1, h4, if_true, Bool.false_eq_true, if_false]
      exact Score.new_eq_some 0 (by norm_num)
  · refine ⟨0, ?_, le_refl 0, by norm_num⟩
    simp only [h1, Bool.false_eq_true, if_false]
    exact Score.new_eq_some 0 (by norm_num)

/-- Closed instance for `player_score_safe`. -/
theorem player_score_safe_witness :
    (∃ s, playerScore [1, 4, 6] = some s ∧ 0 ≤ s ∧ s ≤ 24) ∧
    playerScore ([] : List Int) = some 0 ∧
    Player.reset ⟨"B", [3, 3], 5, 1⟩ = some ⟨"B", [], 5, 1⟩ :=
  player_score_safe [1, 4, 6] ⟨"B", [3, 3], 5, 1⟩ (by decide) (by decide)

/-!  game.py: `Game`.  -/

/-- utils.py `RoundStats` (round index, winner name or "Tie", pot paid out or
carried, all players' scores in roster order). -/
structure RoundStats where
  round : Nat
  winner : String
  pot : Int
  scores : List Int
deriving Repr, DecidableEq

/-- The context arguments game.py `Game.roll` passes to `Player.play`. -/
structure PlayCtx where
  top_score : Int
  players_left : Nat
  current_pot : Int
deriving Repr, DecidableEq

/-- game.py `Game` state.  Players are identified by roster position
(`Player` objects have no `__eq__`, so `players.index` is object identity;
roster entries are distinct objects). -/
structure GameState where
  players : List PlayerState
  round_first_player : Nat
  rounds_played : Nat
  current_pot : Int
  last_round_stats : RoundStats
deriving Repr, DecidableEq

/-- game.py `Game.scores` property: `[player.score for player in self.players]`
(`none` when some player's score raises). -/
def scoresOf (ps : List PlayerState) : Option (List Int) :=
  ps.mapM (fun p => playerScore p.kept_dice)

/-- game.py `Game.top_score` property: `Score(max(self.scores))`; `max` of an
empty list raises. -/
def topScoreOf (ps : List PlayerState) : Option Int :=
  (scoresOf ps).bind (fun l => (l.max?).bind Score.new)

/-- game.py `Game.sort_players`:
`self.players[first_player:] + self.players[:first_player]`, as roster
indices. -/
def GameState.sort_players (g : GameState) : List Nat :=
  (List.range g.players.length).drop g.round_first_player ++
    (List.range g.players.length).take g.round_first_player

/-- The loop in game.py `Game.roll`.  `n` is the roster size, `i` the 1-based
`enumerate` index.  `playFn j ctx p` abstracts `Player.play` for the player
at roster position `j` (`none` = exception).  Besides the updated roster and
pot, it returns, for each play call, the `PlayCtx` passed and the roster at
that moment (ghost data for the proofs). -/
def rollGo (playFn : Nat → PlayCtx → PlayerState → Option PlayerState) (n : Nat) :
    List Nat → Nat → List PlayerState → Int →
    Option (List PlayerState × Int × List (PlayCtx × List PlayerState))
  | [], _, ps, pot => some (ps, pot, [])
  | j :: rest, i, ps, pot =>
    (topScoreOf ps).bind (fun ts =>
      (playFn j ⟨ts, n - i, pot⟩ (ps.getD j default)).bind (fun p' =>
        (rollGo playFn n rest (i + 1) (ps.set j p') (pot + p'.wager)).map
          (fun r => (r.1, r.2.1, ((⟨ts, n - i, pot⟩ : PlayCtx), ps) :: r.2.2))))

/-- game.py `Game.roll`: each player plays in turn order, wagers accumulate
into the pot, and the players matching the final top score are returned (as
roster indices, in turn order). -/
def GameState.roll (playFn : Nat → PlayCtx → PlayerState → Option PlayerState)
    (g : GameState) :
    Option (GameState × List Nat × List (PlayCtx × List PlayerState)) :=
  (rollGo playFn g.players.length g.sort_players 1 g.players g.current_pot).bind
    (fun r =>
      (topScoreOf r.1).map (fun ts =>
        ({ g with players := r.1, current_pot := r.2.1 },
         g.sort_players.filter
           (fun j => decide (playerScore ((r.1.getD j default).kept_dice) = some ts)),
         r.2.2)))

/-- game.py `Game.play_round`: single winner takes the pot which resets to 0,
a tie leaves stakes and pot untouched and records "Tie"; in both cases the
round-first-player index becomes the roster position of the last top-scored
player in turn order (`top_scored_players[-1]`; on a clean win that is the
winner, `top_scored_players[0]`), and the round counter advances. -/
def GameState.play_round (playFn : Nat → PlayCtx → PlayerState → Option PlayerState)
    (g : GameState) : Option GameState :=
  (g.roll playFn).bind (fun r =>
    (r.2.1.getLast?).bind (fun lastTop =>
      (scoresOf r.1.players).map (fun scs =>
        let g1 := r.1
        let g2 :=
          if r.2.1.length = 1 then
            { g1 with
                players := g1.players.set lastTop
                  { g1.players.getD lastTop default with
                      stake := (g1.players.getD lastTop default).stake + g1.current_pot },
                last_round_stats :=
                  ⟨g1.rounds_played, (g1.players.getD lastTop default).name,
                   g1.current_pot, scs⟩,
                current_pot := 0 }
          else
            { g1 with
                last_round_stats := ⟨g1.rounds_played, "Tie", g1.current_pot, scs⟩ }
        { g2 with round_first_player := lastTop,
                  rounds_played := g2.rounds_played + 1 })))

/-- game.py `Game.stakes` summed: total chips currently held by players. -/
def stakesSum (ps : List PlayerState) : Int :=
  (ps.map (fun p => p.stake)).sum

lemma stakesSum_set (ps : List PlayerState) (j : Nat) (p : PlayerState)
    (h : j < ps.length) :
    stakesSum (ps.set j p) = stakesSum ps - (ps.getD j default).stake + p.stake := by
  induction ps generalizing j with
  | nil => simp at h
  | cons a t ih =>
    cases j with
    | zero => simp [stakesSum]; ring
    | succ m =>
      have hm : m < t.length := by simpa using h
      have ih' := ih m hm
      show stakesSum (a :: t.set m p)
          = stakesSum (a :: t) - ((a :: t).getD (m + 1) default).stake + p.stake
      simp only [stakesSum, List.map_cons, List.sum_cons, List.getD_cons_succ] at ih' ⊢
      omega

lemma getD_set_ne (l : List PlayerState) (i j : Nat) (a : PlayerState) (h : i ≠ j) :
    (l.set i a).getD j default = l.getD j default := by
  rw [List.getD_eq_getElem?_getD, List.getD_eq_getElem?_getD, List.getElem?_set_ne h]

lemma mem_of_getLast_eq (l : List Nat) (a : Nat) (h : l.getLast? = some a) : a ∈ l := by
  have hx : a ∈ l.getLast? := Option.mem_def.mpr h
  obtain ⟨hne, rfl⟩ := List.mem_getLast?_eq_getLast hx
  exact List.getLast_mem hne

lemma sort_players_mem_lt (g : GameState) (j : Nat) (h : j ∈ g.sort_players) :
    j < g.players.length := by
  rw [GameState.sort_players] at h
  rcases List.mem_append.mp h with h | h
  · exact List.mem_range.mp (List.mem_of_mem_drop h)
  · exact List.mem_range.mp (List.mem_of_mem_take h)

lemma sort_players_length (g : GameState) :
    g.sort_players.length = g.players.length := by
  rw [GameState.sort_players, List.length_append, List.length_drop,
    List.length_take, List.length_range]
  omega

lemma sort_players_nodup (g : GameState) : g.sort_players.Nodup := by
  have hr : (List.range g.players.length).Nodup := List.nodup_range _
  have hsplit := List.take_append_drop g.round_first_player (List.range g.players.length)
  have hnd : ((List.range g.players.length).take g.round_first_player ++
      (List.range g.players.length).drop g.round_first_player).Nodup := by
    rw [hsplit]
    exact hr
  obtain ⟨h1, h2, hdisj⟩ := List.nodup_append.mp hnd
  exact List.nodup_append.mpr ⟨h2, h1, hdisj.symm⟩

/-- Inversion of one `Game.roll` loop iteration. -/
lemma rollGo_cons_inv (playFn : Nat → PlayCtx → PlayerState → Option PlayerState)
    (n j : Nat) (rest : List Nat) (i : Nat) (ps : List PlayerState) (pot : Int)
    (res : List PlayerState × Int × List (PlayCtx × List PlayerState))
    (h : rollGo playFn n (j :: rest) i ps pot = some res) :
    ∃ ts p' r0,
      topScoreOf ps = some ts ∧
      playFn j ⟨ts, n - i, pot⟩ (ps.getD j default) = some p' ∧
      rollGo playFn n rest (i + 1) (ps.set j p') (pot + p'.wager) = some r0 ∧
      res = (r0.1, r0.2.1, ((⟨ts, n - i, pot⟩ : PlayCtx), ps) :: r0.2.2) := by
  simp only [rollGo, Option.bind_eq_some, Option.map_eq_some'] at h
  obtain ⟨ts, hts, p', hp', r0, hr0, hres⟩ := h
  exact ⟨ts, p', r0, hts, hp', hr0, hres.symm⟩

lemma rollGo_length (playFn : Nat → PlayCtx → PlayerState → Option PlayerState)
    (n : Nat) :
    ∀ order i (ps : List PlayerState) (pot : Int) res,
      rollGo playFn n order i ps pot = some res → res.1.length = ps.length := by
  intro order
  induction order with
  | nil =>
    intro i ps pot res h
    simp only [rollGo, Option.some.injEq] at h
    rw [← h]
  | cons j rest ih =>
    intro i ps pot res h
    obtain ⟨ts, p', r0, hts, hp', hr0, hres⟩ := rollGo_cons_inv playFn n j rest i ps pot res h
    have hlen := ih (i + 1) (ps.set j p') (pot + p'.wager) r0 hr0
    rw [hres]
    simpa [List.length_set] using hlen

lemma rollGo_stakes (playFn : Nat → PlayCtx → PlayerState → Option PlayerState)
    (n : Nat)
    (hplay : ∀ j ctx p p', playFn j ctx p = some p' → p'.stake = p.stake - p'.wager) :
    ∀ order i (ps : List PlayerState) (pot : Int) res,
      (∀ j ∈ order, j < ps.length) →
      rollGo playFn n order i ps pot = some res →
      stakesSum res.1 + res.2.1 = stakesSum ps + pot := by
  intro order
  induction order with
  | nil =>
    intro i ps pot res hv h
    simp only [rollGo, Option.some.injEq] at h
    rw [← h]
  | cons j rest ih =>
    intro i ps pot res hv h
    obtain ⟨ts, p', r0, hts, hp', hr0, hres⟩ := rollGo_cons_inv playFn n j rest i ps pot res h
    have hj : j < ps.length := hv j (List.mem_cons_self j rest)
    have hstake := hplay j _ _ _ hp'
    have hv' : ∀ j' ∈ rest, j' < (ps.set j p').length := by
      intro j' hj'
      rw [List.length_set]
      exact hv j' (List.mem_cons_of_mem j hj')
    have hrec := ih (i + 1) (ps.set j p') (pot + p'.wager) r0 hv' hr0
    have hset := stakesSum_set ps j p' hj
    rw [hres]
    simp only []
    rw [hrec, hset]
    omega

lemma rollGo_log (playFn : Nat → PlayCtx → PlayerState → Option PlayerState)
    (n : Nat) :
    ∀ order i (ps : List PlayerState) (pot : Int) res,
      rollGo playFn n order i ps pot = some res →
      res.2.2.length = order.length ∧
      (∀ e ∈ res.2.2, topScoreOf e.2 = some e.1.top_score) ∧
      (∀ e, res.2.2.head? = some e → e.2 = ps) := by
  intro order
  induction order with
  | nil =>
    intro i ps pot res h
    simp only [rollGo, Option.some.injEq] at h
    rw [← h]
    refine ⟨rfl, by simp, by simp⟩
  | cons j rest ih =>
    intro i ps pot res h
    obtain ⟨ts, p', r0, hts, hp', hr0, hres⟩ := rollGo_cons_inv playFn n j rest i ps pot res h
    obtain ⟨hl1, hl2, hl3⟩ := ih (i + 1) (ps.set j p') (pot + p'.wager) r0 hr0
    rw [hres]
    refine ⟨by simpa using hl1, ?_, ?_⟩
    · intro e he
      rcases List.mem_cons.mp he with he | he
      · rw [he]
        exact hts
      · exact hl2 e he
    · intro e he
      simp only [List.head?_cons, Option.some.injEq] at he
      rw [← he]

lemma rollGo_log_drop (playFn : Nat → PlayCtx → PlayerState → Option PlayerState)
    (n : Nat) :
    ∀ order i (ps : List PlayerState) (pot : Int) res,
      rollGo playFn n order i ps pot = some res →
      order.Nodup →
      ∀ k, ∀ hk : k < res.2.2.length, ∀ j ∈ order.drop k,
        (res.2.2.get ⟨k, hk⟩).2.getD j default = ps.getD j default := by
  intro order
  induction order with
  | nil =>
    intro i ps pot res h hnd k hk j hj
    simp only [rollGo, Option.some.injEq] at h
    rw [← h] at hk
    simp at hk
  | cons j0 rest ih =>
    intro i ps pot res h hnd k hk j hj
    obtain ⟨ts, p', r0, hts, hp', hr0, hres⟩ := rollGo_cons_inv playFn n j0 rest i ps pot res h
    subst hres
    cases k with
    | zero => rfl
    | succ m =>
      have hm : m < r0.2.2.length := by simpa using hk
      have hjrest : j ∈ rest.drop m := by simpa using hj
      have hrec := ih (i + 1) (ps.set j0 p') (pot + p'.wager) r0 hr0
        (List.Nodup.of_cons hnd) m hm j hjrest
      have hne : j0 ≠ j := by
        intro hEq
        have hj0mem : j0 ∈ rest := hEq ▸ List.mem_of_mem_drop hjrest
        exact (List.nodup_cons.mp hnd).1 hj0mem
      have hget : ((((⟨ts, n - i, pot⟩ : PlayCtx), ps) :: r0.2.2).get
          ⟨m + 1, hk⟩) = r0.2.2.get ⟨m, hm⟩ := rfl
      rw [hget, hrec, getD_set_ne ps j0 j p' hne]

lemma roll_inv (playFn : Nat → PlayCtx → PlayerState → Option PlayerState)
    (g g1 : GameState) (tops : List Nat) (log : List (PlayCtx × List PlayerState))
    (h : g.roll playFn = some (g1, tops, log)) :
    ∃ ps pot ts,
      rollGo playFn g.players.length g.sort_players 1 g.players g.current_pot
        = some (ps, pot, log) ∧
      topScoreOf ps = some ts ∧
      g1 = { g with players := ps, current_pot := pot } ∧
      tops = g.sort_players.filter
        (fun j => decide (playerScore ((ps.getD j default).kept_dice) = some ts)) := by
  simp only [GameState.roll, Option.bind_eq_some, Option.map_eq_some'] at h
  obtain ⟨r, hr, ts, hts, heq⟩ := h
  simp only [Prod.mk.injEq] at heq
  obtain ⟨h1, h2, h3⟩ := heq
  refine ⟨r.1, r.2.1, ts, ?_, hts, h1.symm, h2.symm⟩
  rw [← h3]
  exact hr

lemma play_round_inv (playFn : Nat → PlayCtx → PlayerState → Option PlayerState)
    (g g' : GameState) (h : g.play_round playFn = some g') :
    ∃ g1 tops log lastTop scs,
      g.roll playFn = some (g1, tops, log) ∧
      tops.getLast? = some lastTop ∧
      scoresOf g1.players = some scs ∧
      g' = (let g2 :=
          if tops.length = 1 then
            { g1 with
                players := g1.players.set lastTop
                  { g1.players.getD lastTop default with
                      stake := (g1.players.getD lastTop default).stake + g1.current_pot },
                last_round_stats :=
                  ⟨g1.rounds_played, (g1.players.getD lastTop default).name,
                   g1.current_pot, scs⟩,
                current_pot := 0 }
          else
            { g1 with
                last_round_stats := ⟨g1.rounds_played, "Tie", g1.current_pot, scs⟩ }
        { g2 with round_first_player := lastTop,
                  rounds_played := g2.rounds_played + 1 }) := by
  simp only [GameState.play_round, Option.bind_eq_some, Option.map_eq_some'] at h
  obtain ⟨r, hr, lastTop, hlast, scs, hscs, hg'⟩ := h
  exact ⟨r.1, r.2.1, r.2.2, lastTop, scs, hr, hlast, hscs, hg'.symm⟩

/-- C2: a sole top scorer's stake receives the whole pot, the pot resets to 0
and the round record names that player; on a tie no stake changes, the pot
carries over unchanged, and the record's winner is the sentinel "Tie". -/
theorem play_round_payout (playFn : Nat → PlayCtx → PlayerState → Option PlayerState)
    (g g1 : GameState) (tops : List Nat) (log : List (PlayCtx × List PlayerState))
    (g' : GameState)
    (hroll : g.roll playFn = some (g1, tops, log))
    (hpr : g.play_round playFn = some g') :
    (tops.length = 1 → ∃ w, tops = [w] ∧
      g'.players = g1.players.set w
        { g1.players.getD w default with
            stake := (g1.players.getD w default).stake + g1.current_pot } ∧
      g'.current_pot = 0 ∧
      g'.last_round_stats.winner = (g1.players.getD w default).name ∧
      g'.last_round_stats.pot = g1.current_pot) ∧
    (2 ≤ tops.length →
      g'.players = g1.players ∧
      g'.current_pot = g1.current_pot ∧
      g'.last_round_stats.winner = "Tie") := by
  obtain ⟨g1', tops', log', lastTop, scs, hroll', hlast, hscs, hg'⟩ :=
    play_round_inv playFn g g' hpr
  rw [hroll, Option.some.injEq, Prod.mk.injEq, Prod.mk.injEq] at hroll'
  obtain ⟨rfl, rfl, rfl⟩ := hroll'
  subst hg'
  constructor
  · intro h1
    obtain ⟨w, rfl⟩ := List.length_eq_one.mp h1
    have hw : lastTop = w := by
      simp only [List.getLast?_singleton, Option.some.injEq] at hlast
      exact hlast.symm
    subst hw
    exact ⟨lastTop, rfl, rfl, rfl, rfl, rfl⟩
  · intro h2
    have hne : ¬tops.length = 1 := by omega
    refine ⟨?_, ?_, ?_⟩ <;> rw [if_neg hne]

/-- C3: after `play_round` the stored round-first-player index is the roster
position of the last player, in turn order, among those attaining the
round's top score, and it is a valid roster index. -/
theorem play_round_next_first_player
    (playFn : Nat → PlayCtx → PlayerState → Option PlayerState)
    (g g1 : GameState) (tops : List Nat) (log : List (PlayCtx × List PlayerState))
    (g' : GameState)
    (hroll : g.roll playFn = some (g1, tops, log))
    (hpr : g.play_round playFn = some g') :
    ∃ lastTop ts, tops.getLast? = some lastTop ∧
      g'.round_first_player = lastTop ∧
      lastTop < g.players.length ∧
      topScoreOf g1.players = some ts ∧
      playerScore ((g1.players.getD lastTop default).kept_dice) = some ts ∧
      tops = g.sort_players.filter
        (fun j => decide (playerScore ((g1.players.getD j default).kept_dice) = some ts)) := by
  obtain ⟨g1', tops', log', lastTop, scs, hroll', hlast, hscs, hg'⟩ :=
    play_round_inv playFn g g' hpr
  rw [hroll, Option.some.injEq, Prod.mk.injEq, Prod.mk.injEq] at hroll'
  obtain ⟨rfl, rfl, rfl⟩ := hroll'
  obtain ⟨ps, pot, ts, hgo, hts, hg1, htops⟩ := roll_inv playFn g g1 tops log hroll
  have hpl : g1.players = ps := by rw [hg1]
  have hmem : lastTop ∈ tops := mem_of_getLast_eq tops lastTop hlast
  have hmemf := htops ▸ hmem
  obtain ⟨hmemo, hpred⟩ := List.mem_filter.mp hmemf
  refine ⟨lastTop, ts, hlast, ?_, sort_players_mem_lt g lastTop hmemo, ?_, ?_, ?_⟩
  · subst hg'
    rfl
  · rw [hpl]
    exact hts
  · rw [hpl]
    exact of_decide_eq_true hpred
  · rw [hpl]
    exact htops

/-- C8: a round conserves chips: the sum of all stakes plus the pot is the
same before and after `play_round`, provided each successful play deducts
exactly the resulting wager from that player's stake. -/
theorem play_round_conserves_chips
    (playFn : Nat → PlayCtx → PlayerState → Option PlayerState)
    (g g' : GameState)
    (hplay : ∀ j ctx p p', playFn j ctx p = some p' → p'.stake = p.stake - p'.wager)
    (hn : 1 ≤ g.players.length)
    (hpr : g.play_round playFn = some g') :
    stakesSum g'.players + g'.current_pot = stakesSum g.players + g.current_pot := by
  obtain ⟨g1, tops, log, lastTop, scs, hroll, hlast, hscs, hg'⟩ :=
    play_round_inv playFn g g' hpr
  obtain ⟨ps, pot, ts, hgo, hts, hg1, htops⟩ := roll_inv playFn g g1 tops log hroll
  have hvalid : ∀ j ∈ g.sort_players, j < g.players.length :=
    fun j hj => sort_players_mem_lt g j hj
  have hcons := rollGo_stakes playFn g.players.length hplay g.sort_players 1
    g.players g.current_pot (ps, pot, log) hvalid hgo
  have hpslen : ps.length = g.players.length :=
    rollGo_length playFn g.players.length g.sort_players 1
      g.players g.current_pot (ps, pot, log) hgo
  subst hg'
  subst hg1
  by_cases h1 : tops.length = 1
  · have hmem : lastTop ∈ tops := mem_of_getLast_eq tops lastTop hlast
    have hmemo := (List.mem_filter.mp (htops ▸ hmem)).1
    have hlt : lastTop < ps.length := by
      rw [hpslen]
      exact sort_players_mem_lt g lastTop hmemo
    show stakesSum ((if tops.length = 1 then _ else _) : GameState).players + _ = _
    rw [if_pos h1]
    show stakesSum (ps.set lastTop _) + (0 : Int) = stakesSum g.players + g.current_pot
    rw [stakesSum_set ps lastTop _ hlt]
    simp only at hcons ⊢
    omega
  · show stakesSum ((if tops.length = 1 then _ else _) : GameState).players + _ = _
    rw [if_neg h1]
    show stakesSum ps + pot = stakesSum g.players + g.current_pot
    simpa using hcons

/-- C10: every `top_score` that `Game.roll` hands to a play call is the
maximum over all roster players' scores at that moment; the players at turn
positions not yet reached still hold the dice kept in the previous round, so
in particular the first player to act is shown the top score computed
entirely from the previous round's kept dice. -/
theorem roll_top_score_observation
    (playFn : Nat → PlayCtx → PlayerState → Option PlayerState)
    (g g1 : GameState) (tops : List Nat) (log : List (PlayCtx × List PlayerState))
    (hroll : g.roll playFn = some (g1, tops, log))
    (hn : 1 ≤ g.players.length) :
    (∀ e ∈ log, topScoreOf e.2 = some e.1.top_score) ∧
    (∃ e, log.head? = some e ∧ e.2 = g.players ∧
      topScoreOf g.players = some e.1.top_score) ∧
    (∀ k, ∀ hk : k < log.length, ∀ j ∈ g.sort_players.drop k,
      (log.get ⟨k, hk⟩).2.getD j default = g.players.getD j default) := by
  obtain ⟨ps, pot, ts, hgo, hts, hg1, htops⟩ := roll_inv playFn g g1 tops log hroll
  obtain ⟨hlen, htop, hhead⟩ := rollGo_log playFn g.players.length g.sort_players 1
    g.players g.current_pot (ps, pot, log) hgo
  have hlen' : log.length = g.players.length := by
    simpa [sort_players_length] using hlen
  refine ⟨by simpa using htop, ?_, ?_⟩
  · cases log with
    | nil =>
      simp at hlen'
      omega
    | cons e rest =>
      have he2 : e.2 = g.players := hhead e rfl
      refine ⟨e, rfl, he2, ?_⟩
      have hx := htop e (List.mem_cons_self e rest)
      rw [he2] at hx
      exact hx
  · intro k hk j hj
    exact rollGo_log_drop playFn g.players.length g.sort_players 1 g.players
      g.current_pot (ps, pot, log) hgo (sort_players_nodup g) k hk j hj

/-- A concrete play effect used by the closed instances below: the player
always ends the round holding `[1,4,6,6,6,6]`, wagering 2 and paying it from
the stake. -/
def exPlayFn : Nat → PlayCtx → PlayerState → Option PlayerState :=
  fun _ _ p =>
    some { p with kept_dice := [1, 4, 6, 6, 6, 6], wager := 2, stake := p.stake - 2 }

/-- A one-player game about to play a round, with a pot of 5 carried over and
the dice kept in the previous round still in hand (score 8). -/
def exG0 : GameState :=
  { players := [⟨"A", [1, 4, 2, 2, 2, 2], 100, 0⟩],
    round_first_player := 0, rounds_played := 0, current_pot := 5,
    last_round_stats := ⟨0, "", 0, []⟩ }

/-- `exG0` right after `Game.roll` under `exPlayFn`. -/
def exG1 : GameState :=
  { players := [⟨"A", [1, 4, 6, 6, 6, 6], 98, 2⟩],
    round_first_player := 0, rounds_played := 0, current_pot := 7,
    last_round_stats := ⟨0, "", 0, []⟩ }

/-- The play-call log of that roll: one call, shown top score 8 (computed
from the previous round's kept dice) and the pre-round roster. -/
def exLog : List (PlayCtx × List PlayerState) :=
  [(⟨8, 0, 5⟩, [⟨"A", [1, 4, 2, 2, 2, 2], 100, 0⟩])]

/-- `exG0` after the full `Game.play_round` under `exPlayFn`. -/
def exG2 : GameState :=
  { players := [⟨"A", [1, 4, 6, 6, 6, 6], 105, 2⟩],
    round_first_player := 0, rounds_played := 1, current_pot := 0,
    last_round_stats := ⟨0, "A", 7, [24]⟩ }

/-- Closed instance for `play_round_payout`: the sole winner collects the pot. -/
theorem play_round_payout_witness :
    exG0.play_round exPlayFn = some exG2 ∧
    ∃ w, ([0] : List Nat) = [w] ∧
      exG2.players = exG1.players.set w
        { exG1.players.getD w default with
            stake := (exG1.players.getD w default).stake + exG1.current_pot } ∧
      exG2.current_pot = 0 ∧
      exG2.last_round_stats.winner = (exG1.players.getD w default).name ∧
      exG2.last_round_stats.pot = exG1.current_pot :=
  ⟨by decide,
   (play_round_payout exPlayFn exG0 exG1 [0] exLog exG2 (by decide) (by decide)).1 rfl⟩

/-- Closed instance for `play_round_next_first_player`. -/
theorem play_round_next_first_player_witness :
    ∃ lastTop ts, ([0] : List Nat).getLast? = some lastTop ∧
      exG2.round_first_player = lastTop ∧
      lastTop < exG0.players.length ∧
      topScoreOf exG1.players = some ts ∧
      playerScore ((exG1.players.getD lastTop default).kept_dice) = some ts ∧
      ([0] : List Nat) = exG0.sort_players.filter
        (fun j => decide (playerScore ((exG1.players.getD j default).kept_dice) = some ts)) :=
  play_round_next_first_player exPlayFn exG0 exG1 [0] exLog exG2 (by decide) (by decide)

/-- Closed instance for `play_round_conserves_chips`:
100 + 5 before, 105 + 0 after. -/
theorem play_round_conserves_chips_witness :
    stakesSum exG2.players + exG2.current_pot
      = stakesSum exG0.players + exG0.current_pot :=
  play_round_conserves_chips exPlayFn exG0 exG2
    (fun j ctx p p' h => by
      injection h with h
      subst h
      rfl)
    (by decide) (by decide)

/-- Closed instance for `roll_top_score_observation`: the only play call is
shown top score 8, the score of the dice kept in the previous round. -/
theorem roll_top_score_observation_witness :
    (∀ e ∈ exLog, topScoreOf e.2 = some e.1.top_score) ∧
    (∃ e, exLog.head? = some e ∧ e.2 = exG0.players ∧
      topScoreOf exG0.players = some e.1.top_score) ∧
    (∀ k, ∀ hk : k < exLog.length, ∀ j ∈ exG0.sort_players.drop k,
      (exLog.get ⟨k, hk⟩).2.getD j default = exG0.players.getD j default) :=
  roll_top_score_observation exPlayFn exG0 exG1 [0] exLog (by decide) (by decide)

end Midnight
